import Mathlib

/-!
Shallow embedding of the k-sparse autoencoder of this repository
(`src/sparse_autoencoder.py`, shipped inside `src/scripts.js` as a
compiled CPython 3.10 byte-code blob whose bytes above 0x7f were replaced
by the UTF-8 replacement character).  The blob's docstrings, identifiers,
constants and opcodes survive, and every definition below is translated
from the byte-code recovered from it: the forward pass
(`torch.topk(latents_pre_act, self.k)` then `F.relu`; an optional multi-k
branch with width `min(4*k, shape[-1])`; `stats_last_nonzero += 1`
followed by `scatter_(0, unique_indices, 0)`; the auxiliary branch taken
on the updated counter, as `topk(latents_pre_act * dead_mask,
min(auxk, shape[-1]))` then `relu`), the three decoders (`decode_sparse`
scattering into `zeros(n_dirs)`; `decode_clamp` with the hard-coded width
`min(64, shape[-1])` followed by an elementwise multiplication with its
`clamp` argument; `decode_at_k` with width `min(k, shape[-1])`), the
chunked `compute_activations`, the per-neuron `get_topk_activations`
ranking with `min(self.k, len)` entries via reversed `argsort`, the
`load_sae_model` try/except returning `None`, and the in-place
`unit_norm_decoder_` dividing by `weight.norm(dim=0, keepdim=True)`.

Real-valued float32 tensors are modelled as lists of rationals; matrices
are row-major lists of rows.  Each remaining modelling choice (rationals
for floats, explicit column norms where a square root would leave the
rationals, an optional record for the loaded file) is stated at the
definition it concerns.
-/

/-- The non-negativity clamp `F.relu` applied to selected sparse values. -/
def relu (x : ℚ) : ℚ := max x 0

/-- Pointwise `F.relu` of a vector. -/
def reluVec (v : List ℚ) : List ℚ := v.map relu

/-- Pointwise sum of two vectors. -/
def vadd (a b : List ℚ) : List ℚ := List.zipWith (· + ·) a b

/-- Pointwise difference of two vectors. -/
def vsub (a b : List ℚ) : List ℚ := List.zipWith (· - ·) a b

/-- Scalar multiple of a vector (broadcast `tensor * scalar`). -/
def smul (a : ℚ) (v : List ℚ) : List ℚ := v.map (fun x => a * x)

/-- Dot product of two vectors. -/
def dot (a b : List ℚ) : ℚ := (List.zipWith (· * ·) a b).sum

/-- Matrix-vector product, the matrix given as a list of rows. -/
def matVec (w : List (List ℚ)) (v : List ℚ) : List ℚ := w.map (fun row => dot row v)

/-- The `FastAutoencoder` module state, translated from the recovered
`__init__`: hyperparameters `(n_dirs, d_model, k, auxk, multik,
dead_steps_threshold)` (defaults `multik=None`,
`dead_steps_threshold=266`), `encoder = nn.Linear(d_model, n_dirs,
bias=False)` stored here as `n_dirs` rows of length `d_model`,
`decoder = nn.Linear(n_dirs, d_model, bias=False)` stored as `d_model`
rows of length `n_dirs` (torch stores `weight` as out-features ×
in-features, so each *column* of `decoder_weight` is one latent
direction), `pre_bias = zeros(d_model)`, `latent_bias = zeros(n_dirs)`,
and the `stats_last_nonzero` staleness buffer of length `n_dirs`, called
`dead_steps` in the specification and here.  The source's `multik` is an
optional integer used only for its truthiness in `forward`, so it is
modelled as the flag `multik`. -/
structure FastAutoencoder where
  n_dirs : ℕ
  d_model : ℕ
  k : ℕ
  auxk : Option ℕ
  multik : Bool
  dead_steps_threshold : ℕ
  encoder_weight : List (List ℚ)
  decoder_weight : List (List ℚ)
  pre_bias : List ℚ
  latent_bias : List ℚ
  dead_steps : List ℕ

/-- The encoder pre-activation, translated from `forward` and
`compute_activations`: `self.encoder(x - self.pre_bias) +
self.latent_bias` — no nonlinearity at this stage. -/
def encode (m : FastAutoencoder) (x : List ℚ) : List ℚ :=
  vadd (matVec m.encoder_weight (vsub x m.pre_bias)) m.latent_bias

/-- Indices of `base` ordered by their value in `v` descending, truncated
to the first `k` — the index half of a `torch.topk`-style selection
restricted to the candidate positions `base`.  `torch.topk` leaves the
order of exactly equal values unspecified; the stable sort used here
makes the earlier index win, a deterministic refinement of that tie
freedom. -/
def topkOf (base : List ℕ) (v : List ℚ) (k : ℕ) : List ℕ :=
  (base.mergeSort (fun i j => decide (v.getD j 0 ≤ v.getD i 0))).take k

/-- The index set of `torch.topk(v, k, dim=-1)`: positions of the `k`
largest entries of `v` (all of them when `k` exceeds its length —
`torch.topk` itself raises in that case, which no caller here reaches). -/
def topkIndices (v : List ℚ) (k : ℕ) : List ℕ :=
  topkOf (List.range v.length) v k

/-- The primary sparse code of the forward pass, translated from the
recovered body: `topk_values, topk_indices = torch.topk(latents_pre_act,
self.k, dim=-1)` followed by `topk_values = F.relu(topk_values)`. -/
def primaryCode (v : List ℚ) (k : ℕ) : List ℕ × List ℚ :=
  let idx := topkIndices v k
  (idx, idx.map (fun i => relu (v.getD i 0)))

/-- Value stored at position `p` by a sequence of `(index, value)`
writes.  `scatter_` with duplicate indices is unspecified in torch, and
every caller here passes pairwise distinct indices, so the first match is
returned. -/
def scatterLookup (pairs : List (ℕ × ℚ)) (p : ℕ) : ℚ :=
  match pairs with
  | [] => 0
  | (i, x) :: rest => if i = p then x else scatterLookup rest p

/-- `zeros(n)` followed by `scatter_(-1, idx, vals)`, as in all the
recovered decode paths and the forward pass. -/
def scatter (n : ℕ) (idx : List ℕ) (vals : List ℚ) : List ℚ :=
  (List.range n).map (scatterLookup (idx.zip vals))

/-- The dense sparse-code vector of the forward pass
(`latents_post_act`): the primary code of `v` scattered into
`zeros_like(v)`-style storage of length `n`. -/
def sparseLatents (n : ℕ) (v : List ℚ) (k : ℕ) : List ℚ :=
  scatter n (primaryCode v k).1 (primaryCode v k).2

/-- The dead mask of the recovered auxiliary branch:
`(stats_last_nonzero > dead_steps_threshold).float()`, one entry per
latent dimension. -/
def dead_mask (threshold : ℕ) (steps : List ℕ) : List ℚ :=
  steps.map (fun s => if threshold < s then 1 else 0)

/-- The latent dimensions currently flagged dead under counter `steps`,
in index order: those with `steps[i] > threshold`. -/
def deadIndices (threshold : ℕ) (steps : List ℕ) : List ℕ :=
  (List.range steps.length).filter (fun i => decide (threshold < steps.getD i 0))

/-- The auxiliary sparse code, translated from the recovered forward
body: `dead_latents_pre_act = latents_pre_act * dead_mask`, then
`auxk_values, auxk_indices = torch.topk(dead_latents_pre_act,
min(self.auxk, dead_latents_pre_act.shape[-1]), dim=-1)`, then
`auxk_values = F.relu(auxk_values)`.  The width is `min(auxk, n_dirs)`,
not the number of dead dimensions, and the selection runs over the full
masked vector, so non-dead positions (masked to zero) can be selected and
then carry value zero. -/
def auxCode (threshold : ℕ) (steps : List ℕ) (auxk : ℕ) (v : List ℚ) :
    List ℕ × List ℚ :=
  let dv := List.zipWith (· * ·) v (dead_mask threshold steps)
  let idx := topkIndices dv (min auxk dv.length)
  (idx, idx.map (fun i => relu (dv.getD i 0)))

/-- The multi-k sparse code of the recovered forward body:
`torch.topk(latents_pre_act, min(4*self.k, latents_pre_act.shape[-1]),
dim=-1)` then `relu` — width four times `k`, capped at the vector
length. -/
def multikCode (m : FastAutoencoder) (v : List ℚ) : List ℕ × List ℚ :=
  let idx := topkIndices v (min (4 * m.k) v.length)
  (idx, idx.map (fun i => relu (v.getD i 0)))

/-- Dense decode shared by every recovered decode path:
`self.decoder(latents) + self.pre_bias`. -/
def denseDecode (m : FastAutoencoder) (latents : List ℚ) : List ℚ :=
  vadd (matVec m.decoder_weight latents) m.pre_bias

/-- `decode_sparse(indices, values)`, translated from the recovered body:
`latents = torch.zeros(self.n_dirs, device=device)`,
`latents.scatter_(-1, indices, values)`, then
`self.decoder(latents) + self.pre_bias`. -/
def decode_sparse (m : FastAutoencoder) (idx : List ℕ) (vals : List ℚ) : List ℚ :=
  denseDecode m (scatter m.n_dirs idx vals)

/-- `decode_clamp(latents, clamp)`, translated from the recovered body:
`topk_values, topk_indices = torch.topk(latents, min(64,
latents.shape[-1]), dim=-1)` — the selection width is the hard-coded 64,
not the `clamp` argument — then `relu`, scatter into
`zeros_like(latents)`, then `latents = latents * clamp` (the `clamp`
argument is an elementwise multiplier; the source broadcasts a scalar or
an array, modelled here by the scalar case), then
`self.decoder(latents) + self.pre_bias`. -/
def decode_clamp (m : FastAutoencoder) (latents : List ℚ) (clamp : ℚ) : List ℚ :=
  let idx := topkIndices latents (min 64 latents.length)
  let vals := idx.map (fun i => relu (latents.getD i 0))
  denseDecode m (smul clamp (scatter latents.length idx vals))

/-- Follows the claim's words (spec §4.3) rather than the source, for
comparison with the translated `decode_clamp`: re-select the top
`min(clamp_width, n_dirs)` entries of the dense latent vector,
non-negativity clamped, scatter into a zero vector of length `n_dirs`,
multiply by `decoder_weight`, add `pre_bias`. -/
def decode_clamp_spec (m : FastAutoencoder) (latents : List ℚ)
    (clamp_width : ℕ) : List ℚ :=
  let idx := topkIndices latents (min clamp_width m.n_dirs)
  let vals := idx.map (fun i => relu (latents.getD i 0))
  decode_sparse m idx vals

/-- `decode_at_k(latents, k)`, translated from the recovered body:
`torch.topk(latents, min(k, latents.shape[-1]), dim=-1)`, `relu`, scatter
into `zeros_like(latents)`, then `self.decoder(latents) +
self.pre_bias`. -/
def decode_at_k (m : FastAutoencoder) (latents : List ℚ) (k' : ℕ) : List ℚ :=
  let idx := topkIndices latents (min k' latents.length)
  let vals := idx.map (fun i => relu (latents.getD i 0))
  denseDecode m (scatter latents.length idx vals)

/-- Union (with multiplicity, order preserving) of the per-item
primary-code index sets of a batch — the positions `topk_indices.unique()`
ranges over in the recovered counter update. -/
def batchUnionIndices (m : FastAutoencoder) (xs : List (List ℚ)) : List ℕ :=
  (xs.map (fun x => (primaryCode (encode m x) m.k).1)).flatten

/-- The staleness-counter update of the recovered forward body:
`self.stats_last_nonzero += 1` followed by
`self.stats_last_nonzero.scatter_(0, topk_indices.unique(), 0)` — net
effect per forward call: every dimension in the union of the batch's
primary-code indices ends at zero, every other counter grows by one. -/
def updateDeadSteps (m : FastAutoencoder) (union : List ℕ) : List ℕ :=
  (List.range m.dead_steps.length).map
    (fun i => if i ∈ union then 0 else m.dead_steps.getD i 0 + 1)

/-- The outputs of one forward call over a batch, following the recovered
return value `(recons, {topk_indices, topk_values, multik_recons,
auxk_indices, auxk_values, latents_pre_act, latents_post_act})` (the
`latents_post_act` entry is the field `latents`), plus the updated
counter buffer; the auxiliary and multi-k entries are `None` in the
source when `auxk` respectively `multik` is unset, modelled as `none`. -/
structure ForwardOutput where
  latents_pre_act : List (List ℚ)
  topk_indices : List (List ℕ)
  topk_values : List (List ℚ)
  latents : List (List ℚ)
  recons : List (List ℚ)
  auxk_indices : Option (List (List ℕ))
  auxk_values : Option (List (List ℚ))
  multik_recons : Option (List (List ℚ))
  dead_steps : List ℕ

/-- `FastAutoencoder.forward` over a batch, translated from the recovered
byte-code, in source order: pre-activations; primary top-k then `relu`;
optional multi-k code; scatter into `zeros_like`; the counter update
(`+= 1`, then zero at the batch union); reconstructions; and the
auxiliary code computed against the *updated* counter. -/
def forward (m : FastAutoencoder) (xs : List (List ℚ)) : ForwardOutput :=
  let pre := xs.map (encode m)
  let lat := pre.map (fun v => sparseLatents v.length v m.k)
  let newSteps := updateDeadSteps m (batchUnionIndices m xs)
  { latents_pre_act := pre
    topk_indices := pre.map (fun v => (primaryCode v m.k).1)
    topk_values := pre.map (fun v => (primaryCode v m.k).2)
    latents := lat
    recons := lat.map (denseDecode m)
    auxk_indices :=
      match m.auxk with
      | none => none
      | some a =>
        some (pre.map (fun v => (auxCode m.dead_steps_threshold newSteps a v).1))
    auxk_values :=
      match m.auxk with
      | none => none
      | some a =>
        some (pre.map (fun v => (auxCode m.dead_steps_threshold newSteps a v).2))
    multik_recons :=
      if m.multik then
        some (pre.map (fun v =>
          denseDecode m (scatter v.length (multikCode m v).1 (multikCode m v).2)))
      else none
    dead_steps := newSteps }

/-- `FastAutoencoder.compute_activations`, translated from the recovered
body: `for i in range(0, num_samples, batch_size)`, per chunk
`F.relu(self.encoder(batch - self.pre_bias) + self.latent_bias)` under
`no_grad`, results stacked in item order.  The source raises for a
non-positive `batch_size` (and `np.vstack` raises on an empty input);
those error paths are modelled by the empty matrix and excluded by the
theorems' hypotheses. -/
def compute_activations (m : FastAutoencoder) (xs : List (List ℚ)) (chunk : ℕ) :
    List (List ℚ) :=
  if h : xs = [] ∨ chunk = 0 then []
  else
    (xs.take chunk).map (fun x => reluVec (encode m x)) ++
      compute_activations m (xs.drop chunk) chunk
termination_by xs.length
decreasing_by
  simp only [List.length_drop]
  rcases Nat.eq_zero_or_pos chunk with hc | hc
  · exact absurd (Or.inr hc) h
  · have hxs : xs ≠ [] := fun hnil => h (Or.inl hnil)
    have : 0 < xs.length := List.length_pos.mpr hxs
    omega

/-- `FastAutoencoder.get_topk_activations`, translated from the recovered
body: `all_activations = self.compute_activations(x, batch_size)`, then
for each `neuron_idx in range(self.n_dirs)` take the column,
`k = min(self.k, len(neuron_activations))`,
`indices = np.argsort(neuron_activations)[-k:][::-1]` (the top `k` item
indices by activation descending; `np.argsort` leaves ties unspecified
and the stable rule of `topkOf` refines that), and
`values = neuron_activations[indices]`. -/
def get_topk_activations (m : FastAutoencoder) (xs : List (List ℚ)) (chunk : ℕ) :
    List (List ℕ × List ℚ) :=
  let acts := compute_activations m xs chunk
  (List.range m.n_dirs).map (fun j =>
    let col := acts.map (fun row => row.getD j 0)
    let idx := topkIndices col m.k
    (idx, idx.map (fun i => col.getD i 0)))

/-- The persisted parameter mapping `torch.load` yields for this model —
the `state_dict` with the two `nn.Linear` weights, the two bias
parameters and the `stats_last_nonzero` buffer. -/
structure StateDict where
  encoder_weight : List (List ℚ)
  decoder_weight : List (List ℚ)
  pre_bias : List ℚ
  latent_bias : List ℚ
  dead_steps : List ℕ

/-- Shape agreement between a persisted blob and the declared
hyperparameters — the validation `load_state_dict` performs (it raises on
any size mismatch): `encoder_weight` is `n_dirs` rows of length
`d_model`, `decoder_weight` is `d_model` rows of length `n_dirs`, and the
bias and counter vectors have the matching lengths. -/
def shapesOk (n_dirs d_model : ℕ) (sd : StateDict) : Bool :=
  sd.encoder_weight.length == n_dirs &&
  sd.encoder_weight.all (fun row => row.length == d_model) &&
  sd.decoder_weight.length == d_model &&
  sd.decoder_weight.all (fun row => row.length == n_dirs) &&
  sd.pre_bias.length == d_model &&
  sd.latent_bias.length == n_dirs &&
  sd.dead_steps.length == n_dirs

/-- `load_sae_model`, translated from the recovered body: inside a
`try`, construct `FastAutoencoder(n_neurons, n_input_features, k, auxk)`,
`torch.load` the file and `load_state_dict` it; any exception — the file
missing or unreadable, or a stored shape disagreeing with the declared
hyperparameters — is caught, reported, and `None` is returned.  The file
read is modelled by the optional `blob` (a missing or unreadable file is
an absent blob) and `load_state_dict`'s validation by `shapesOk`; the
constructor defaults recovered from `__init__` fill the hyperparameters
the loader does not pass (`multik=None`, `dead_steps_threshold=266`). -/
def load_sae_model (blob : Option StateDict) (n_neurons n_input_features k : ℕ)
    (auxk : Option ℕ) : Option FastAutoencoder :=
  match blob with
  | none => none
  | some sd =>
    if shapesOk n_neurons n_input_features sd then
      some
        { n_dirs := n_neurons
          d_model := n_input_features
          k := k
          auxk := auxk
          multik := false
          dead_steps_threshold := 266
          encoder_weight := sd.encoder_weight
          decoder_weight := sd.decoder_weight
          pre_bias := sd.pre_bias
          latent_bias := sd.latent_bias
          dead_steps := sd.dead_steps }
    else none

/-- Sum of squares of the entries of column `c` of a row-major matrix —
the square of the Euclidean norm `weight.norm(dim=0)` computes per
column. -/
def colSqNorm (w : List (List ℚ)) (c : ℕ) : ℚ :=
  (w.map (fun row => row.getD c 0 * row.getD c 0)).sum

/-- `unit_norm_decoder_`, translated from the recovered body:
`decoder.weight.div_(decoder.weight.norm(dim=0, keepdim=True))` under
`no_grad` — every entry divided by its column's Euclidean norm.  The
square root leaves the rationals, so the column norms are supplied as an
explicit argument, constrained in the theorems to square to the column's
sum of squares; the in-place mutation is modelled by returning the
rescaled matrix. -/
def unit_norm_decoder (w : List (List ℚ)) (norms : List ℚ) : List (List ℚ) :=
  w.map (fun row => List.zipWith (· / ·) row norms)

/-- Number of nonzero entries of a vector — the sparsity actually used by
a re-sparsified latent vector. -/
def countNonzeros (v : List ℚ) : ℕ :=
  v.countP (fun q => decide (q ≠ 0))

/-- A small concrete model matching the spec's scenario (`d_model = 4`,
`n_dirs = 3`, `k = 2`): the encoder weights and `pre_bias` vanish and
`latent_bias` is `[0.1, 0.9, -0.3]`, so every input encodes to the
scenario's pre-activation vector; latent dimension 2 starts with counter
7, above the threshold 5. -/
def demoModel : FastAutoencoder :=
  { n_dirs := 3
    d_model := 4
    k := 2
    auxk := some 1
    multik := false
    dead_steps_threshold := 5
    encoder_weight := [[0, 0, 0, 0], [0, 0, 0, 0], [0, 0, 0, 0]]
    decoder_weight := [[1, 0, 0], [0, 1, 0], [0, 0, 1], [1, 1, 1]]
    pre_bias := [0, 0, 0, 0]
    latent_bias := [mkRat 1 10, mkRat 9 10, -(mkRat 3 10)]
    dead_steps := [0, 0, 7] }

/-- A two-latent, one-output model whose decoder sums the two latent
coordinates; it separates decoding a vector from decoding its
non-negativity-clamped version, and exposes `decode_clamp`'s multiplier
semantics. -/
def counterModel : FastAutoencoder :=
  { n_dirs := 2
    d_model := 1
    k := 2
    auxk := none
    multik := false
    dead_steps_threshold := 0
    encoder_weight := [[1], [1]]
    decoder_weight := [[1, 1]]
    pre_bias := [0]
    latent_bias := [0, 0]
    dead_steps := [0, 0] }

/-- A model with `auxk` set whose staleness counters stay far below the
threshold, so that no latent dimension is ever dead. -/
def noDeadModel : FastAutoencoder :=
  { n_dirs := 2
    d_model := 1
    k := 1
    auxk := some 1
    multik := false
    dead_steps_threshold := 10
    encoder_weight := [[1], [2]]
    decoder_weight := [[1, 1]]
    pre_bias := [0]
    latent_bias := [0, 0]
    dead_steps := [0, 0] }

/-- A persisted blob whose stored `encoder_weight` has rows of length 8
(stored `d_model = 8`), to be loaded against declared `d_model = 4`. -/
def mismatchBlob : StateDict :=
  { encoder_weight :=
      [[0, 0, 0, 0, 0, 0, 0, 0], [0, 0, 0, 0, 0, 0, 0, 0], [0, 0, 0, 0, 0, 0, 0, 0]]
    decoder_weight := [[0, 0, 0], [0, 0, 0], [0, 0, 0], [0, 0, 0]]
    pre_bias := [0, 0, 0, 0]
    latent_bias := [0, 0, 0]
    dead_steps := [0, 0, 0] }

/-! Structural lemmas about the top-k selection. -/

theorem relu_nonneg (x : ℚ) : 0 ≤ relu x := le_max_right x 0

theorem relu_of_nonneg {x : ℚ} (h : 0 ≤ x) : relu x = x := max_eq_left h

theorem topkOf_length (base : List ℕ) (v : List ℚ) (k : ℕ) :
    (topkOf base v k).length = min k base.length := by
  simp [topkOf, List.length_take, List.length_mergeSort]

theorem topkOf_sublist_sorted (base : List ℕ) (v : List ℚ) (k : ℕ) :
    List.Sublist (topkOf base v k)
      (base.mergeSort (fun i j => decide (v.getD j 0 ≤ v.getD i 0))) :=
  List.take_sublist _ _

theorem topkOf_subset (base : List ℕ) (v : List ℚ) (k : ℕ) :
    ∀ i ∈ topkOf base v k, i ∈ base := by
  intro i hi
  exact List.mem_mergeSort.mp (List.Sublist.mem hi (topkOf_sublist_sorted base v k))

theorem topkOf_nodup {base : List ℕ} (v : List ℚ) (k : ℕ) (h : base.Nodup) :
    (topkOf base v k).Nodup := by
  have hperm := (List.mergeSort_perm base
    (fun i j => decide (v.getD j 0 ≤ v.getD i 0))).symm
  exact List.Nodup.sublist (topkOf_sublist_sorted base v k) (hperm.nodup h)

theorem topk_cmp_trans (v : List ℚ) : ∀ a b c : ℕ,
    decide (v.getD b 0 ≤ v.getD a 0) = true →
    decide (v.getD c 0 ≤ v.getD b 0) = true →
    decide (v.getD c 0 ≤ v.getD a 0) = true := by
  intro a b c hab hbc
  exact decide_eq_true (le_trans (of_decide_eq_true hbc) (of_decide_eq_true hab))

theorem topk_cmp_total (v : List ℚ) : ∀ a b : ℕ,
    (decide (v.getD b 0 ≤ v.getD a 0) || decide (v.getD a 0 ≤ v.getD b 0)) = true := by
  intro a b
  rcases le_total (v.getD b 0) (v.getD a 0) with h | h
  · exact Bool.or_eq_true_iff.mpr (Or.inl (decide_eq_true h))
  · exact Bool.or_eq_true_iff.mpr (Or.inr (decide_eq_true h))

theorem topkOf_pairwise (base : List ℕ) (v : List ℚ) (k : ℕ) :
    (topkOf base v k).Pairwise (fun i j => v.getD j 0 ≤ v.getD i 0) := by
  have hs := List.sorted_mergeSort (topk_cmp_trans v) (topk_cmp_total v) base
  have hp := List.Pairwise.sublist (topkOf_sublist_sorted base v k) hs
  exact hp.imp (fun h => of_decide_eq_true h)

theorem topkOf_cross (base : List ℕ) (v : List ℚ) (k : ℕ) :
    ∀ i ∈ topkOf base v k, ∀ j ∈ base, j ∉ topkOf base v k →
      v.getD j 0 ≤ v.getD i 0 := by
  intro i hi j hj hnj
  have hs := List.sorted_mergeSort (topk_cmp_trans v) (topk_cmp_total v) base
  set s := base.mergeSort (fun i j => decide (v.getD j 0 ≤ v.getD i 0)) with hsdef
  have hsplit : List.take k s ++ List.drop k s = s := List.take_append_drop k s
  have hj' : j ∈ s := List.mem_mergeSort.mpr hj
  have hjdrop : j ∈ List.drop k s := by
    rcases List.mem_append.mp (hsplit ▸ hj') with h | h
    · exact absurd h hnj
    · exact h
  have hpw : List.Pairwise
      (fun a b => decide (v.getD b 0 ≤ v.getD a 0) = true)
      (List.take k s ++ List.drop k s) := by rw [hsplit]; exact hs
  have hcross := (List.pairwise_append.mp hpw).2.2
  exact of_decide_eq_true (hcross i hi j hjdrop)

/-! Structural lemmas about scatter and pointwise vector operations. -/

theorem scatter_length (n : ℕ) (idx : List ℕ) (vals : List ℚ) :
    (scatter n idx vals).length = n := by
  simp [scatter]

theorem scatter_getD (n : ℕ) (idx : List ℕ) (vals : List ℚ) (p : ℕ) (hp : p < n) :
    (scatter n idx vals).getD p 0 = scatterLookup (idx.zip vals) p := by
  have hlen : p < (scatter n idx vals).length := by simpa [scatter_length] using hp
  rw [List.getD_eq_getElem _ _ hlen]
  simp [scatter]

theorem scatterLookup_zip_map (σ : List ℕ) (f : ℕ → ℚ) (p : ℕ) :
    scatterLookup (σ.zip (σ.map f)) p = if p ∈ σ then f p else 0 := by
  induction σ with
  | nil => simp [scatterLookup]
  | cons i rest ih =>
    rw [List.map_cons, List.zip_cons_cons]
    show (if i = p then f i else scatterLookup (rest.zip (rest.map f)) p) = _
    by_cases hip : i = p
    · subst hip
      rw [if_pos rfl, if_pos (List.mem_cons.mpr (Or.inl rfl))]
    · rw [if_neg hip, ih]
      by_cases hp : p ∈ rest
      · rw [if_pos hp, if_pos (List.mem_cons.mpr (Or.inr hp))]
      · rw [if_neg hp, if_neg]
        intro hmem
        rcases List.mem_cons.mp hmem with h | h
        · exact hip h.symm
        · exact hp h

theorem scatterLookup_ne_zero {pairs : List (ℕ × ℚ)} {p : ℕ}
    (h : scatterLookup pairs p ≠ 0) : p ∈ pairs.map Prod.fst := by
  induction pairs with
  | nil => simp [scatterLookup] at h
  | cons q rest ih =>
    obtain ⟨i, x⟩ := q
    by_cases hip : i = p
    · simp [hip]
    · have h' : scatterLookup rest p ≠ 0 := by
        intro h0
        apply h
        show (if i = p then x else scatterLookup rest p) = 0
        rw [if_neg hip, h0]
      rw [List.map_cons]
      exact List.mem_cons.mpr (Or.inr (ih h'))

theorem scatterLookup_comb (a b : ℚ) (idx : List ℕ) (v1 v2 : List ℚ)
    (h : v1.length = v2.length) (p : ℕ) :
    scatterLookup (idx.zip (List.zipWith (fun x y => a * x + b * y) v1 v2)) p
      = a * scatterLookup (idx.zip v1) p + b * scatterLookup (idx.zip v2) p := by
  induction idx generalizing v1 v2 with
  | nil => simp [scatterLookup]
  | cons i rest ih =>
    cases v1 with
    | nil =>
      cases v2 with
      | nil => simp [scatterLookup]
      | cons y ys => simp at h
    | cons x xs =>
      cases v2 with
      | nil => simp at h
      | cons y ys =>
        have hlen : xs.length = ys.length := by simpa using h
        rw [List.zipWith_cons_cons, List.zip_cons_cons, List.zip_cons_cons,
          List.zip_cons_cons]
        show (if i = p then a * x + b * y else _) = _
        by_cases hip : i = p
        · rw [if_pos hip]
          show _ = a * (if i = p then x else _) + b * (if i = p then y else _)
          rw [if_pos hip, if_pos hip]
        · rw [if_neg hip, ih xs ys hlen]
          show _ = a * (if i = p then x else _) + b * (if i = p then y else _)
          rw [if_neg hip, if_neg hip]

theorem map_range_getD (v : List ℚ) (f : ℚ → ℚ) :
    (List.range v.length).map (fun p => f (v.getD p 0)) = v.map f := by
  induction v with
  | nil => simp
  | cons x xs ih =>
    have hr : List.range (xs.length + 1) = 0 :: (List.range xs.length).map Nat.succ :=
      List.range_succ_eq_map xs.length
    simp only [List.length_cons, hr, List.map_cons, List.map_map]
    have h2 : ((fun p => f ((x :: xs).getD p 0)) ∘ Nat.succ)
        = fun p => f (xs.getD p 0) := rfl
    rw [h2, ih]
    rfl

theorem getD_zipWith (f : ℚ → ℚ → ℚ) (a b : List ℚ) (c : ℕ)
    (h1 : c < a.length) (h2 : c < b.length) :
    (List.zipWith f a b).getD c 0 = f (a.getD c 0) (b.getD c 0) := by
  have hl : c < (List.zipWith f a b).length := by
    rw [List.length_zipWith]
    omega
  rw [List.getD_eq_getElem _ _ hl, List.getElem_zipWith,
    List.getD_eq_getElem a 0 h1, List.getD_eq_getElem b 0 h2]

theorem dead_mask_getD (threshold : ℕ) (steps : List ℕ) (i : ℕ)
    (hi : i < steps.length) :
    (dead_mask threshold steps).getD i 0
      = if threshold < steps.getD i 0 then 1 else 0 := by
  have hl : i < (dead_mask threshold steps).length := by
    simpa [dead_mask] using hi
  rw [List.getD_eq_getElem _ _ hl, List.getD_eq_getElem steps 0 hi]
  simp [dead_mask]

/-! The Batch Activation Computer is a per-item map. -/

theorem compute_activations_eq_map (m : FastAutoencoder) (c : ℕ) (hc : 0 < c)
    (xs : List (List ℚ)) :
    compute_activations m xs c = xs.map (fun x => reluVec (encode m x)) := by
  have H : ∀ n (ys : List (List ℚ)), ys.length ≤ n →
      compute_activations m ys c = ys.map (fun x => reluVec (encode m x)) := by
    intro n
    induction n with
    | zero =>
      intro ys hlen
      have hnil : ys = [] := List.length_eq_zero.mp (Nat.le_zero.mp hlen)
      subst hnil
      rw [compute_activations]
      simp
    | succ n ih =>
      intro ys hlen
      by_cases hnil : ys = []
      · subst hnil
        rw [compute_activations]
        simp
      · rw [compute_activations]
        have hcond : ¬(ys = [] ∨ c = 0) := by
          rintro (h | h)
          · exact hnil h
          · omega
        rw [dif_neg hcond]
        have hdrop : (ys.drop c).length ≤ n := by
          have h1 : 0 < ys.length := List.length_pos.mpr hnil
          have h2 : (ys.drop c).length = ys.length - c := List.length_drop c ys
          omega
        rw [ih (ys.drop c) hdrop, ← List.map_append, List.take_append_drop]
  exact H xs.length xs le_rfl

/-! Further helper lemmas for the claim theorems. -/

theorem encode_length (m : FastAutoencoder) (x : List ℚ) :
    (encode m x).length = min m.encoder_weight.length m.latent_bias.length := by
  simp [encode, vadd, matVec, List.length_zipWith]

theorem updateDeadSteps_getD (m : FastAutoencoder) (union : List ℕ) (i : ℕ)
    (hi : i < m.dead_steps.length) :
    (updateDeadSteps m union).getD i 0
      = if i ∈ union then 0 else m.dead_steps.getD i 0 + 1 := by
  have hlen : i < (updateDeadSteps m union).length := by
    simpa [updateDeadSteps] using hi
  rw [List.getD_eq_getElem _ _ hlen]
  simp [updateDeadSteps]

theorem countNonzeros_scatter_le (n : ℕ) (idx : List ℕ) (vals : List ℚ)
    (hlen : idx.length = vals.length) :
    countNonzeros (scatter n idx vals) ≤ idx.length := by
  unfold countNonzeros scatter
  rw [List.countP_map, List.countP_eq_length_filter]
  have hsub : List.Subset
      ((List.range n).filter
        (fun p => decide (scatterLookup (idx.zip vals) p ≠ 0))) idx := by
    intro p hp
    have hmem := List.of_mem_filter hp
    have hne : scatterLookup (idx.zip vals) p ≠ 0 := of_decide_eq_true hmem
    have hmem2 := scatterLookup_ne_zero hne
    rwa [List.map_fst_zip _ _ (le_of_eq hlen)] at hmem2
  have hnd : ((List.range n).filter
      (fun p => decide (scatterLookup (idx.zip vals) p ≠ 0))).Nodup :=
    (List.nodup_range n).filter _
  exact (List.subperm_of_subset hnd hsub).length_le

theorem countNonzeros_smul_le (c : ℚ) (w : List ℚ) :
    countNonzeros (smul c w) ≤ countNonzeros w := by
  unfold countNonzeros smul
  rw [List.countP_map]
  apply List.countP_mono_left
  intro x _ h
  have hcx : c * x ≠ 0 := of_decide_eq_true h
  refine decide_eq_true ?_
  intro hx
  exact hcx (by rw [hx, mul_zero])

theorem smul_one (w : List ℚ) : smul 1 w = w := by
  unfold smul
  have : (fun x : ℚ => 1 * x) = fun x : ℚ => x := by
    funext x
    rw [one_mul]
  rw [this]
  exact List.map_id w

theorem scatter_topk_full (v : List ℚ) :
    scatter v.length (topkIndices v v.length)
      ((topkIndices v v.length).map (fun i => relu (v.getD i 0))) = reluVec v := by
  have hfull : topkIndices v v.length
      = (List.range v.length).mergeSort
          (fun i j => decide (v.getD j 0 ≤ v.getD i 0)) := by
    unfold topkIndices topkOf
    apply List.take_of_length_le
    simp [List.length_mergeSort]
  have hmem : ∀ p, p ∈ topkIndices v v.length ↔ p < v.length := by
    intro p
    rw [hfull, List.mem_mergeSort, List.mem_range]
  unfold scatter
  have hpt : ∀ p ∈ List.range v.length,
      scatterLookup ((topkIndices v v.length).zip
        ((topkIndices v v.length).map (fun i => relu (v.getD i 0)))) p
      = relu (v.getD p 0) := by
    intro p hp
    rw [scatterLookup_zip_map]
    rw [if_pos ((hmem p).mpr (List.mem_range.mp hp))]
  rw [List.map_congr_left hpt]
  exact map_range_getD v relu

theorem zipWith_map_same {α : Type} (f : ℚ → ℚ → ℚ) (g h : α → ℚ) (l : List α) :
    List.zipWith f (l.map g) (l.map h) = l.map (fun p => f (g p) (h p)) := by
  induction l with
  | nil => rfl
  | cons x xs ih => simp [ih]

theorem scatter_comb (a b : ℚ) (n : ℕ) (idx : List ℕ) (v1 v2 : List ℚ)
    (hlen : v1.length = v2.length) :
    scatter n idx (List.zipWith (fun x y => a * x + b * y) v1 v2)
      = List.zipWith (fun x y => a * x + b * y)
          (scatter n idx v1) (scatter n idx v2) := by
  unfold scatter
  rw [zipWith_map_same]
  apply List.map_congr_left
  intro p _
  exact scatterLookup_comb a b idx v1 v2 hlen p

theorem dot_comb (a b : ℚ) : ∀ (r u w : List ℚ), u.length = w.length →
    dot r (List.zipWith (fun x y => a * x + b * y) u w)
      = a * dot r u + b * dot r w := by
  intro r
  induction r with
  | nil => intro u w _; simp [dot]
  | cons x rs ih =>
    intro u w h
    cases u with
    | nil =>
      cases w with
      | nil => simp [dot]
      | cons y ys => simp at h
    | cons y ys =>
      cases w with
      | nil => simp at h
      | cons z zs =>
        have hlen : ys.length = zs.length := by simpa using h
        have hd : ∀ (q : ℚ) (qs : List ℚ) (c : ℚ) (cs : List ℚ),
            dot (q :: qs) (c :: cs) = q * c + dot qs cs := by
          intro q qs c cs
          simp [dot]
        rw [List.zipWith_cons_cons, hd, hd, hd, ih ys zs hlen]
        ring

theorem matVec_comb (a b : ℚ) (w : List (List ℚ)) (u v : List ℚ)
    (hlen : u.length = v.length) :
    matVec w (List.zipWith (fun x y => a * x + b * y) u v)
      = List.zipWith (fun x y => a * x + b * y) (matVec w u) (matVec w v) := by
  unfold matVec
  rw [zipWith_map_same]
  apply List.map_congr_left
  intro row _
  exact dot_comb a b row u v hlen

theorem affine_collapse (a b : ℚ) : ∀ (l1 l2 pre : List ℚ), l1.length = l2.length →
    vsub (vadd (List.zipWith (fun x y => a * x + b * y) l1 l2) pre) pre
      = vadd (smul a (vsub (vadd l1 pre) pre)) (smul b (vsub (vadd l2 pre) pre)) := by
  intro l1
  induction l1 with
  | nil =>
    intro l2 pre h
    have : l2 = [] := List.length_eq_zero.mp h.symm
    subst this
    simp [vadd, vsub, smul]
  | cons x xs ih =>
    intro l2 pre h
    cases l2 with
    | nil => simp at h
    | cons y ys =>
      have hlen : xs.length = ys.length := by simpa using h
      cases pre with
      | nil => simp [vadd, vsub, smul]
      | cons p ps =>
        have htail := ih ys ps hlen
        simp only [vadd, vsub, smul, List.zipWith_cons_cons, List.map_cons] at htail ⊢
        rw [htail]
        congr 1
        ring

theorem colSqNorm_cons (row : List ℚ) (rows : List (List ℚ)) (c : ℕ) :
    colSqNorm (row :: rows) c
      = row.getD c 0 * row.getD c 0 + colSqNorm rows c := by
  simp [colSqNorm]

/-- Membership characterization of `deadIndices`. -/
theorem mem_deadIndices {threshold : ℕ} {steps : List ℕ} {i : ℕ} :
    i ∈ deadIndices threshold steps
      ↔ i < steps.length ∧ threshold < steps.getD i 0 := by
  unfold deadIndices
  rw [List.mem_filter, List.mem_range]
  constructor
  · rintro ⟨h1, h2⟩
    exact ⟨h1, of_decide_eq_true h2⟩
  · rintro ⟨h1, h2⟩
    exact ⟨h1, decide_eq_true h2⟩

/-- Pairing a list with its image under a function. -/
theorem zip_self_map {α β : Type} (l : List α) (f : α → β) :
    l.zip (l.map f) = l.map (fun x => (x, f x)) := by
  induction l with
  | nil => rfl
  | cons x xs ih => simp [ih]

/-! Claim theorems. -/

unseal Rat.add Rat.mul Rat.inv Rat.sub List.merge List.mergeSort in
/-- C1: for every input and every `k ≤ n_dirs`, the primary sparse code of
the forward pass consists of the `k` largest entries of the dense
pre-activation with negative selected values clamped to zero — exactly `k`
index/value pairs, every value non-negative — and on the pre-activation
vector `[0.1, 0.9, -0.3]` with `k = 2` the selected indices are `1, 0`
with values `[0.9, 0.1]` while position `2` of the scattered code receives
zero. -/
theorem C1_primary_code (m : FastAutoencoder) (xs : List (List ℚ)) (x : List ℚ)
    (hew : m.encoder_weight.length = m.n_dirs)
    (hlb : m.latent_bias.length = m.n_dirs)
    (hk : m.k ≤ m.n_dirs) :
    ((forward m xs).topk_indices = xs.map (fun y => (primaryCode (encode m y) m.k).1)
      ∧ (forward m xs).topk_values = xs.map (fun y => (primaryCode (encode m y) m.k).2))
    ∧ ((primaryCode (encode m x) m.k).1.length = m.k
      ∧ (primaryCode (encode m x) m.k).2.length = m.k
      ∧ (∀ q ∈ (primaryCode (encode m x) m.k).2, 0 ≤ q)
      ∧ (primaryCode (encode m x) m.k).1.Nodup
      ∧ (∀ i ∈ (primaryCode (encode m x) m.k).1, i < m.n_dirs)
      ∧ (primaryCode (encode m x) m.k).2
          = (primaryCode (encode m x) m.k).1.map
              (fun i => relu ((encode m x).getD i 0))
      ∧ (∀ i ∈ (primaryCode (encode m x) m.k).1, ∀ j < m.n_dirs,
          j ∉ (primaryCode (encode m x) m.k).1 →
            (encode m x).getD j 0 ≤ (encode m x).getD i 0))
    ∧ (primaryCode [mkRat 1 10, mkRat 9 10, -(mkRat 3 10)] 2
        = ([1, 0], [mkRat 9 10, mkRat 1 10])
      ∧ sparseLatents 3 [mkRat 1 10, mkRat 9 10, -(mkRat 3 10)] 2
        = [mkRat 1 10, mkRat 9 10, 0]) := by
  have hvlen : (encode m x).length = m.n_dirs := by
    rw [encode_length, hew, hlb, min_self]
  refine ⟨⟨?_, ?_⟩, ⟨?_, ?_, ?_, ?_, ?_, rfl, ?_⟩, by decide, by decide⟩
  · show (xs.map (encode m)).map (fun v => (primaryCode v m.k).1) = _
    rw [List.map_map]
    rfl
  · show (xs.map (encode m)).map (fun v => (primaryCode v m.k).2) = _
    rw [List.map_map]
    rfl
  · show (topkIndices (encode m x) m.k).length = m.k
    unfold topkIndices
    rw [topkOf_length, List.length_range, hvlen]
    omega
  · show ((topkIndices (encode m x) m.k).map
        (fun i => relu ((encode m x).getD i 0))).length = m.k
    rw [List.length_map]
    unfold topkIndices
    rw [topkOf_length, List.length_range, hvlen]
    omega
  · intro q hq
    rcases List.mem_map.mp hq with ⟨i, _, hqi⟩
    rw [← hqi]
    exact relu_nonneg _
  · exact topkOf_nodup _ _ (List.nodup_range _)
  · intro i hi
    have := topkOf_subset _ _ _ i hi
    rw [List.mem_range, hvlen] at this
    exact this
  · intro i hi j hj hnj
    apply topkOf_cross (List.range (encode m x).length) (encode m x) m.k i hi
    · rw [List.mem_range, hvlen]
      exact hj
    · exact hnj

/-- C1 witness: the general part of `C1_primary_code` instantiated at the
scenario model — the primary code of the encoded input has exactly `k`
entries. -/
theorem C1_primary_code_witness :
    (primaryCode (encode demoModel [0, 0, 0, 0]) demoModel.k).1.length
      = demoModel.k :=
  (C1_primary_code demoModel [] [0, 0, 0, 0]
    (by decide) (by decide) (by decide)).2.1.1

/-- C2: after one forward pass over a batch, every latent dimension in the
union of the batch's primary-code indices has its `dead_steps`
(`stats_last_nonzero`) counter equal to zero, and every other dimension's
counter is incremented by one — the once-per-forward-call convention the
recovered `+= 1` and `scatter_(0, unique, 0)` update applies
consistently. -/
theorem C2_dead_steps_update (m : FastAutoencoder) (xs : List (List ℚ)) (i : ℕ)
    (hds : m.dead_steps.length = m.n_dirs) (hi : i < m.n_dirs) :
    (forward m xs).dead_steps.length = m.n_dirs
    ∧ (i ∈ batchUnionIndices m xs → (forward m xs).dead_steps.getD i 0 = 0)
    ∧ (i ∉ batchUnionIndices m xs →
        (forward m xs).dead_steps.getD i 0 = m.dead_steps.getD i 0 + 1) := by
  have hlen : i < m.dead_steps.length := by omega
  have hfwd : (forward m xs).dead_steps
      = updateDeadSteps m (batchUnionIndices m xs) := rfl
  refine ⟨?_, ?_, ?_⟩
  · rw [hfwd]
    simp [updateDeadSteps, hds]
  · intro hmem
    rw [hfwd, updateDeadSteps_getD m _ i hlen, if_pos hmem]
  · intro hmem
    rw [hfwd, updateDeadSteps_getD m _ i hlen, if_neg hmem]

unseal Rat.add Rat.mul Rat.inv Rat.sub List.merge List.mergeSort in
/-- C2 witness: on the scenario model with a one-item batch, the stale
latent dimension 2 is not selected and its counter advances from 7 to 8. -/
theorem C2_dead_steps_update_witness :
    (forward demoModel [[0, 0, 0, 0]]).dead_steps.getD 2 0
      = demoModel.dead_steps.getD 2 0 + 1 :=
  (C2_dead_steps_update demoModel [[0, 0, 0, 0]] 2
    (by decide) (by decide)).2.2 (by decide)

/-- C7: the Batch Activation Computer's result is independent of the chunk
size — for every input collection and all positive chunk sizes it produces
the same Activation Matrix, row for row in original item order, each row
the non-negativity-clamped encoder output of its item. -/
theorem C7_chunk_independent (m : FastAutoencoder) (xs : List (List ℚ))
    (c1 c2 : ℕ) (h1 : 0 < c1) (h2 : 0 < c2) :
    compute_activations m xs c1 = xs.map (fun x => reluVec (encode m x))
    ∧ compute_activations m xs c1 = compute_activations m xs c2 := by
  refine ⟨compute_activations_eq_map m c1 h1 xs, ?_⟩
  rw [compute_activations_eq_map m c1 h1 xs, compute_activations_eq_map m c2 h2 xs]

/-- C7 witness: 1000 items chunked by 100 produce the same Activation
Matrix as chunked by 1000. -/
theorem C7_chunk_independent_witness :
    compute_activations demoModel
        (List.replicate 1000 (List.replicate 4 (0 : ℚ))) 100
      = compute_activations demoModel
          (List.replicate 1000 (List.replicate 4 (0 : ℚ))) 1000 :=
  (C7_chunk_independent demoModel (List.replicate 1000 (List.replicate 4 (0 : ℚ)))
    100 1000 (by decide) (by decide)).2

unseal Rat.add Rat.mul Rat.inv Rat.sub List.merge List.mergeSort in
/-- C3 counterexample: on `noDeadModel` (auxk set, counters far below the
threshold) no latent dimension is dead after the forward pass, yet the
auxiliary code is present and nonempty — it selects the non-dead index 0
with value 0 — contradicting the claim that the auxiliary code contains
only dead dimensions, has `min(auxk, dead_count)` entries, and is
empty/absent whenever no dimension is dead. -/
theorem C3_counterexample :
    deadIndices noDeadModel.dead_steps_threshold
        (forward noDeadModel [[1]]).dead_steps = []
    ∧ (forward noDeadModel [[1]]).auxk_indices = some [[0]]
    ∧ (forward noDeadModel [[1]]).auxk_values = some [[0]] := by
  refine ⟨by decide, by decide, by decide⟩

/-- C3 (amended): the auxiliary code of the forward pass, computed
against the counter *after* the batch's update, selects the top
`min(auxk, n_dirs)` entries of the pre-activation multiplied by the dead
mask, non-negativity clamped.  It has exactly `min(auxk, n_dirs)`
index/value pairs whenever `auxk` is set — in particular it is nonempty,
not empty, when no dimension is dead (for positive `auxk` and `n_dirs`) —
every value is non-negative, every pair carrying a nonzero value lies at
a dead dimension (non-dead positions are masked to zero), and the
selected positions beat every unselected position of the masked
vector. -/
theorem C3_aux_code (m : FastAutoencoder) (xs : List (List ℚ))
    (threshold a : ℕ) (steps : List ℕ) (v : List ℚ)
    (ha : m.auxk = some a) (hlen : steps.length = v.length) :
    ((forward m xs).auxk_indices
        = some (xs.map (fun y => (auxCode m.dead_steps_threshold
            (updateDeadSteps m (batchUnionIndices m xs)) a (encode m y)).1))
      ∧ (forward m xs).auxk_values
        = some (xs.map (fun y => (auxCode m.dead_steps_threshold
            (updateDeadSteps m (batchUnionIndices m xs)) a (encode m y)).2)))
    ∧ (auxCode threshold steps a v).1.length = min a v.length
    ∧ (auxCode threshold steps a v).2
        = (auxCode threshold steps a v).1.map (fun i =>
            relu ((List.zipWith (· * ·) v (dead_mask threshold steps)).getD i 0))
    ∧ (∀ q ∈ (auxCode threshold steps a v).2, 0 ≤ q)
    ∧ (0 < a → 0 < v.length → (auxCode threshold steps a v).1 ≠ [])
    ∧ (∀ pr ∈ (auxCode threshold steps a v).1.zip (auxCode threshold steps a v).2,
        pr.2 ≠ 0 → threshold < steps.getD pr.1 0)
    ∧ (∀ i ∈ (auxCode threshold steps a v).1, ∀ j < v.length,
        j ∉ (auxCode threshold steps a v).1 →
          (List.zipWith (· * ·) v (dead_mask threshold steps)).getD j 0
            ≤ (List.zipWith (· * ·) v (dead_mask threshold steps)).getD i 0) := by
  have hmask : (dead_mask threshold steps).length = v.length := by
    simp [dead_mask, hlen]
  have hdv : (List.zipWith (· * ·) v (dead_mask threshold steps)).length
      = v.length := by
    rw [List.length_zipWith, hmask, min_self]
  have hidxlen : (auxCode threshold steps a v).1.length = min a v.length := by
    show (topkIndices _ (min a _)).length = _
    unfold topkIndices
    rw [topkOf_length, List.length_range, hdv]
    omega
  refine ⟨⟨?_, ?_⟩, hidxlen, rfl, ?_, ?_, ?_, ?_⟩
  · show (match m.auxk with
      | none => none
      | some a' => some ((xs.map (encode m)).map (fun w =>
          (auxCode m.dead_steps_threshold
            (updateDeadSteps m (batchUnionIndices m xs)) a' w).1))) = _
    rw [ha]
    show some ((xs.map (encode m)).map (fun w =>
        (auxCode m.dead_steps_threshold
          (updateDeadSteps m (batchUnionIndices m xs)) a w).1)) = _
    rw [List.map_map]
    rfl
  · show (match m.auxk with
      | none => none
      | some a' => some ((xs.map (encode m)).map (fun w =>
          (auxCode m.dead_steps_threshold
            (updateDeadSteps m (batchUnionIndices m xs)) a' w).2))) = _
    rw [ha]
    show some ((xs.map (encode m)).map (fun w =>
        (auxCode m.dead_steps_threshold
          (updateDeadSteps m (batchUnionIndices m xs)) a w).2)) = _
    rw [List.map_map]
    rfl
  · intro q hq
    rcases List.mem_map.mp hq with ⟨i, _, hqi⟩
    rw [← hqi]
    exact relu_nonneg _
  · intro hpos hvpos
    have : 0 < (auxCode threshold steps a v).1.length := by
      rw [hidxlen]
      omega
    exact List.length_pos.mp this
  · intro pr hpr hne
    have hzip : (auxCode threshold steps a v).1.zip (auxCode threshold steps a v).2
        = (auxCode threshold steps a v).1.map (fun i =>
            (i, relu ((List.zipWith (· * ·) v (dead_mask threshold steps)).getD i 0))) :=
      zip_self_map _ _
    rw [hzip] at hpr
    rcases List.mem_map.mp hpr with ⟨i, hi, hpri⟩
    rw [← hpri] at hne ⊢
    by_contra hnot
    apply hne
    show relu ((List.zipWith (· * ·) v (dead_mask threshold steps)).getD i 0) = 0
    have hzero : (List.zipWith (· * ·) v (dead_mask threshold steps)).getD i 0 = 0 := by
      by_cases hilt : i < v.length
      · rw [getD_zipWith _ _ _ _ hilt (by omega : i < (dead_mask threshold steps).length)]
        rw [dead_mask_getD threshold steps i (by omega)]
        rw [if_neg hnot, mul_zero]
      · exact List.getD_eq_default _ _ (by omega)
    rw [hzero]
    decide
  · intro i hi j hj hnj
    apply topkOf_cross (List.range
        (List.zipWith (· * ·) v (dead_mask threshold steps)).length)
      (List.zipWith (· * ·) v (dead_mask threshold steps)) _ i hi
    · rw [List.mem_range, hdv]
      exact hj
    · exact hnj

/-- C3 witness: on the scenario model's configuration (threshold 5,
counter `[0, 0, 7]`, `auxk = 1`) the auxiliary code holds exactly
`min(auxk, n_dirs) = 1` entry. -/
theorem C3_aux_code_witness :
    (auxCode 5 [0, 0, 7] 1 [mkRat 1 10, mkRat 9 10, -(mkRat 3 10)]).1.length
      = min 1 ([mkRat 1 10, mkRat 9 10, -(mkRat 3 10)] : List ℚ).length :=
  (C3_aux_code demoModel [] 5 1 [0, 0, 7]
    [mkRat 1 10, mkRat 9 10, -(mkRat 3 10)] (by decide) (by decide)).2.1

unseal Rat.add Rat.mul Rat.inv Rat.sub List.merge List.mergeSort in
/-- C4 counterexample: on `counterModel` with latent vector `[3, 1]` and
argument `2`, the byte-code `decode_clamp` yields `[8]` — the fixed
width `min(64, 2)` selects both entries and the argument multiplies the
re-sparsified vector — while the claim's re-select-top-`min(clamp_width,
n_dirs)` computation (`decode_clamp_spec`) and `decode_at_k` both yield
`[4]`: the clamp argument is not a sparsity budget and `decode_clamp`
differs from `decode_at_k`. -/
theorem C4_counterexample :
    decode_clamp counterModel [3, 1] 2 ≠ decode_clamp_spec counterModel [3, 1] 2
    ∧ decode_clamp counterModel [3, 1] 2 ≠ decode_at_k counterModel [3, 1] 2 := by
  refine ⟨by decide, by decide⟩

/-- C4 (amended): `decode_clamp(v, clamp)` re-selects the top
`min(64, len(v))` entries of the dense latent vector — the hard-coded 64,
not the caller's argument, bounds the sparsity of the reconstruction —
non-negativity clamps them, scatters them into a zero vector of the
vector's length, multiplies the re-sparsified vector elementwise by the
`clamp` argument, then multiplies by `decoder_weight` and adds
`pre_bias`; with `clamp = 1` it coincides with `decode_at_k` at budget
64. -/
theorem C4_decode_clamp (m : FastAutoencoder) (v : List ℚ) (c : ℚ) :
    decode_clamp m v c
      = denseDecode m (smul c (scatter v.length (topkIndices v (min 64 v.length))
          ((topkIndices v (min 64 v.length)).map (fun i => relu (v.getD i 0)))))
    ∧ countNonzeros (smul c (scatter v.length (topkIndices v (min 64 v.length))
        ((topkIndices v (min 64 v.length)).map (fun i => relu (v.getD i 0)))))
        ≤ min 64 v.length
    ∧ (∀ q ∈ (topkIndices v (min 64 v.length)).map (fun i => relu (v.getD i 0)),
        0 ≤ q)
    ∧ decode_clamp m v 1 = decode_at_k m v 64 := by
  refine ⟨rfl, ?_, ?_, ?_⟩
  · have h1 := countNonzeros_smul_le c
      (scatter v.length (topkIndices v (min 64 v.length))
        ((topkIndices v (min 64 v.length)).map (fun i => relu (v.getD i 0))))
    have h2 := countNonzeros_scatter_le v.length (topkIndices v (min 64 v.length))
      ((topkIndices v (min 64 v.length)).map (fun i => relu (v.getD i 0)))
      (by rw [List.length_map])
    have h3 : (topkIndices v (min 64 v.length)).length ≤ min 64 v.length := by
      unfold topkIndices
      rw [topkOf_length, List.length_range]
      omega
    omega
  · intro q hq
    rcases List.mem_map.mp hq with ⟨i, _, hqi⟩
    rw [← hqi]
    exact relu_nonneg _
  · show denseDecode m (smul 1 (scatter v.length (topkIndices v (min 64 v.length))
        ((topkIndices v (min 64 v.length)).map (fun i => relu (v.getD i 0))))) = _
    rw [smul_one]
    rfl

unseal Rat.add Rat.mul Rat.inv Rat.sub List.merge List.mergeSort in
/-- C5 counterexample: `decode_at_k(v, n_dirs)` does not equal direct
dense decoding for every dense latent vector — the re-selection
non-negativity-clamps the entries, so on `counterModel` (decoder summing
both latent coordinates) the vector `[1, -1]` decodes densely to `[0]`
while `decode_at_k` at full width yields `[1]`. -/
theorem C5_counterexample :
    decode_at_k counterModel [1, -1] counterModel.n_dirs
      ≠ denseDecode counterModel [1, -1] := by decide

/-- C5 (amended): for every dense latent vector of length `n_dirs`,
`decode_at_k` at full sparsity budget `n_dirs` equals direct dense
decoding of the non-negativity-clamped vector; in particular it equals
direct dense decoding of the vector itself whenever all entries are
non-negative — as they are for every latent code the model itself
produces. -/
theorem C5_decode_at_k_full_width (m : FastAutoencoder) (v : List ℚ)
    (hlen : v.length = m.n_dirs) :
    decode_at_k m v m.n_dirs = denseDecode m (reluVec v)
    ∧ ((∀ q ∈ v, 0 ≤ q) → decode_at_k m v m.n_dirs = denseDecode m v) := by
  have hmain : decode_at_k m v m.n_dirs = denseDecode m (reluVec v) := by
    show denseDecode m (scatter v.length (topkIndices v (min m.n_dirs v.length))
      ((topkIndices v (min m.n_dirs v.length)).map (fun i => relu (v.getD i 0)))) = _
    rw [← hlen, min_self, scatter_topk_full]
  refine ⟨hmain, fun hpos => ?_⟩
  rw [hmain]
  have : reluVec v = v := by
    unfold reluVec
    rw [List.map_congr_left (fun q hq => relu_of_nonneg (hpos q hq))]
    exact List.map_id v
  rw [this]

/-- C5 witness: on `counterModel` with the non-negative latent vector
`[1, 1]`, full-width `decode_at_k` equals direct dense decoding. -/
theorem C5_decode_at_k_full_width_witness :
    decode_at_k counterModel [1, 1] counterModel.n_dirs
      = denseDecode counterModel [1, 1] :=
  (C5_decode_at_k_full_width counterModel [1, 1] (by decide)).2 (by decide)

/-- C6: `decode_sparse` is affine-linear in its values argument — for a
fixed index set and all value vectors of equal length, decoding the
combination `a·v1 + b·v2` minus `pre_bias` equals the same combination of
the individually decoded vectors minus `pre_bias`. -/
theorem C6_decode_sparse_linear (m : FastAutoencoder) (idx : List ℕ) (a b : ℚ)
    (v1 v2 : List ℚ) (hlen : v1.length = v2.length) :
    vsub (decode_sparse m idx (List.zipWith (fun x y => a * x + b * y) v1 v2))
        m.pre_bias
      = vadd (smul a (vsub (decode_sparse m idx v1) m.pre_bias))
          (smul b (vsub (decode_sparse m idx v2) m.pre_bias)) := by
  show vsub (vadd (matVec m.decoder_weight
      (scatter m.n_dirs idx (List.zipWith (fun x y => a * x + b * y) v1 v2)))
      m.pre_bias) m.pre_bias = _
  rw [scatter_comb a b m.n_dirs idx v1 v2 hlen,
    matVec_comb a b m.decoder_weight _ _ (by simp [scatter_length])]
  exact affine_collapse a b _ _ _ (by simp [matVec])

unseal Rat.add Rat.mul Rat.inv Rat.sub in
/-- C6 witness: the linearity identity instantiated on `counterModel` with
index set `[0]`, scalars `2` and `3`, and values `[1]` and `[1]`. -/
theorem C6_decode_sparse_linear_witness :
    vsub (decode_sparse counterModel [0]
        (List.zipWith (fun x y => 2 * x + 3 * y) [1] [1]))
        counterModel.pre_bias
      = vadd (smul 2 (vsub (decode_sparse counterModel [0] [1])
            counterModel.pre_bias))
          (smul 3 (vsub (decode_sparse counterModel [0] [1])
            counterModel.pre_bias)) :=
  C6_decode_sparse_linear counterModel [0] 2 3 [1] [1] (by decide)

/-- The successful branch of the loader, spelled out. -/
theorem load_sae_model_some (sd : StateDict) (nd dm k : ℕ) (ak : Option ℕ) :
    load_sae_model (some sd) nd dm k ak
      = if shapesOk nd dm sd then
          some { n_dirs := nd, d_model := dm, k := k, auxk := ak
                 multik := false, dead_steps_threshold := 266
                 encoder_weight := sd.encoder_weight
                 decoder_weight := sd.decoder_weight
                 pre_bias := sd.pre_bias
                 latent_bias := sd.latent_bias
                 dead_steps := sd.dead_steps }
        else none := rfl

/-- C8: the Model Loader never yields a partially constructed model — an
absent (missing or unreadable) blob loads to `none`, a shape mismatch
against the declared hyperparameters loads to `none`, any successful load
returns a model fully populated from the blob with the declared
hyperparameters, and the stored-d_model-8-versus-declared-4 scenario
fails. -/
theorem C8_load_sae_model (blob : Option StateDict) (nd dm k : ℕ)
    (ak : Option ℕ) :
    (blob = none → load_sae_model blob nd dm k ak = none)
    ∧ (∀ sd, blob = some sd → shapesOk nd dm sd = false →
        load_sae_model blob nd dm k ak = none)
    ∧ (∀ mdl, load_sae_model blob nd dm k ak = some mdl →
        ∃ sd, blob = some sd ∧ shapesOk nd dm sd = true
          ∧ mdl.n_dirs = nd ∧ mdl.d_model = dm ∧ mdl.k = k ∧ mdl.auxk = ak
          ∧ mdl.encoder_weight = sd.encoder_weight
          ∧ mdl.decoder_weight = sd.decoder_weight
          ∧ mdl.pre_bias = sd.pre_bias
          ∧ mdl.latent_bias = sd.latent_bias
          ∧ mdl.dead_steps = sd.dead_steps)
    ∧ load_sae_model (some mismatchBlob) 3 4 k ak = none := by
  have hmis : shapesOk 3 4 mismatchBlob = false := by decide
  refine ⟨?_, ?_, ?_, ?_⟩
  · intro hb
    rw [hb]
    rfl
  · intro sd hb hbad
    rw [hb, load_sae_model_some, hbad]
    rfl
  · intro mdl hload
    cases blob with
    | none => exact absurd hload (by simp [load_sae_model])
    | some sd =>
      refine ⟨sd, rfl, ?_⟩
      rw [load_sae_model_some] at hload
      by_cases hok : shapesOk nd dm sd
      · rw [if_pos hok] at hload
        have hmdl := Option.some.inj hload
        rw [← hmdl]
        exact ⟨hok, rfl, rfl, rfl, rfl, rfl, rfl, rfl, rfl, rfl⟩
      · rw [if_neg hok] at hload
        exact absurd hload (by simp)
  · rw [load_sae_model_some, hmis]
    rfl

/-- C8 witness: loading an absent blob yields `none`. -/
theorem C8_load_sae_model_witness :
    load_sae_model none 3 4 2 none = none :=
  (C8_load_sae_model none 3 4 2 none).1 rfl

/-- C9: after the weight-normalization utility runs, every column whose
supplied Euclidean norm is nonzero and squares to the column's sum of
squares has squared L2 norm exactly 1 — i.e. unit Euclidean norm. -/
theorem C9_unit_norm_decoder (w : List (List ℚ)) (norms : List ℚ) (c : ℕ)
    (hsq : norms.getD c 0 * norms.getD c 0 = colSqNorm w c)
    (hnz : norms.getD c 0 ≠ 0)
    (hcn : c < norms.length)
    (hcr : ∀ row ∈ w, c < row.length) :
    colSqNorm (unit_norm_decoder w norms) c = 1 := by
  have hdiv : ∀ ws : List (List ℚ), (∀ row ∈ ws, c < row.length) →
      colSqNorm (unit_norm_decoder ws norms) c
        = colSqNorm ws c / (norms.getD c 0 * norms.getD c 0) := by
    intro ws
    induction ws with
    | nil =>
      intro _
      simp [colSqNorm, unit_norm_decoder]
    | cons row rows ih =>
      intro hall
      have hrow : c < row.length := hall row (List.mem_cons.mpr (Or.inl rfl))
      have hrest : ∀ r ∈ rows, c < r.length := fun r hr =>
        hall r (List.mem_cons.mpr (Or.inr hr))
      show colSqNorm (List.zipWith (· / ·) row norms :: unit_norm_decoder rows norms) c = _
      rw [colSqNorm_cons, colSqNorm_cons, ih hrest,
        getD_zipWith (· / ·) row norms c hrow hcn, div_mul_div_comm, add_div]
  rw [hdiv w hcr, hsq, div_self]
  rw [← hsq]
  exact mul_ne_zero hnz hnz

unseal Rat.add Rat.mul Rat.inv Rat.sub in
/-- C9 witness: the single column `(3, 4)` with Euclidean norm `5` is
rescaled to squared norm 1. -/
theorem C9_unit_norm_decoder_witness :
    colSqNorm (unit_norm_decoder [[3], [4]] [5]) 0 = 1 :=
  C9_unit_norm_decoder [[3], [4]] [5] 0 (by decide) (by decide) (by decide)
    (by decide)

/-- C10: for every input collection (and positive chunk size),
`get_topk_activations` returns, for each of the `n_dirs` latent
dimensions, exactly `min(k, num_items)` pairwise distinct item indices
together with their activation values, ordered by activation value
descending — the per-neuron top-N ranking reusing the model's `k` as N. -/
theorem C10_get_topk_activations (m : FastAutoencoder) (xs : List (List ℚ))
    (chunk j : ℕ) (hc : 0 < chunk) (hj : j < m.n_dirs) :
    (get_topk_activations m xs chunk).length = m.n_dirs
    ∧ ((get_topk_activations m xs chunk).getD j ([], [])).1.length
        = min m.k xs.length
    ∧ ((get_topk_activations m xs chunk).getD j ([], [])).2
        = ((get_topk_activations m xs chunk).getD j ([], [])).1.map
            (fun i => ((compute_activations m xs chunk).map
              (fun row => row.getD j 0)).getD i 0)
    ∧ (∀ i ∈ ((get_topk_activations m xs chunk).getD j ([], [])).1,
        i < xs.length)
    ∧ ((get_topk_activations m xs chunk).getD j ([], [])).1.Nodup
    ∧ ((get_topk_activations m xs chunk).getD j ([], [])).2.Pairwise
        (fun p q => q ≤ p) := by
  have hcollen : ((compute_activations m xs chunk).map
      (fun row => row.getD j 0)).length = xs.length := by
    rw [List.length_map, compute_activations_eq_map m chunk hc, List.length_map]
  have hglen : (get_topk_activations m xs chunk).length = m.n_dirs := by
    simp [get_topk_activations]
  have hjl : j < (get_topk_activations m xs chunk).length := by omega
  have hentry : (get_topk_activations m xs chunk).getD j ([], [])
      = (topkIndices ((compute_activations m xs chunk).map
            (fun row => row.getD j 0)) m.k,
          (topkIndices ((compute_activations m xs chunk).map
            (fun row => row.getD j 0)) m.k).map
            (fun i => ((compute_activations m xs chunk).map
              (fun row => row.getD j 0)).getD i 0)) := by
    rw [List.getD_eq_getElem _ _ hjl]
    simp [get_topk_activations, hj]
  refine ⟨hglen, ?_, ?_, ?_, ?_, ?_⟩
  · rw [hentry]
    show (topkIndices _ m.k).length = _
    unfold topkIndices
    rw [topkOf_length, List.length_range, hcollen]
  · rw [hentry]
  · intro i hi
    rw [hentry] at hi
    have := topkOf_subset _ _ _ i hi
    rw [List.mem_range, hcollen] at this
    exact this
  · rw [hentry]
    exact topkOf_nodup _ _ (List.nodup_range _)
  · rw [hentry]
    show (List.map _ (topkIndices _ m.k)).Pairwise _
    rw [List.pairwise_map]
    exact topkOf_pairwise _ _ _

unseal Rat.add Rat.mul Rat.inv Rat.sub List.merge List.mergeSort compute_activations in
/-- C10 witness: on the scenario model with two items, neuron 0's ranking
has exactly `min(k, 2) = 2` entries. -/
theorem C10_get_topk_activations_witness :
    ((get_topk_activations demoModel [[0, 0, 0, 0], [0, 0, 0, 0]] 2).getD 0
        ([], [])).1.length
      = min demoModel.k ([[0, 0, 0, 0], [0, 0, 0, 0]] : List (List ℚ)).length :=
  (C10_get_topk_activations demoModel [[0, 0, 0, 0], [0, 0, 0, 0]] 2 0
    (by decide) (by decide)).2.1
